import Mathlib

/-
  Verification development for the video-call-app repository.

  Backend model: src/backend/index.js (socket.io relay).
  Client model:  src/frontend/src/utils/connection.tsx (useWebRTCConnection).

  Conventions of the shallow embedding:
  * socket ids and room ids are strings, timestamps are naturals;
  * JavaScript Maps / plain objects keyed by strings become association
    lists with an ordered lookup (first match wins, like Map.get);
  * each socket.io handler becomes a pure function from server state and
    its arguments to the new server state together with the list of events
    it emits, in emission order;
  * socket.io gives every connected socket a personal room named by its own
    id; the model keeps personal rooms implicit in the `connected` list and
    `ioTo` adds the personal-room recipient exactly as the adapter does;
  * the adapter's deletion of empty rooms is not modelled (an empty member
    list behaves identically in every modelled operation).
-/

namespace VideoCallApp

/-- lookupA l k finds the value stored under key k (first match), as
JavaScript Map.get does. -/
def lookupA {β : Type} : List (String × β) → String → Option β
  | [], _ => none
  | (k', v) :: t, k => if k' = k then some v else lookupA t k

/-- updateAssoc l k v replaces the value stored under key k, leaving other
entries alone, as JavaScript Map.set does on an existing key. -/
def updateAssoc {β : Type} (l : List (String × β)) (k : String) (v : β) :
    List (String × β) :=
  l.map (fun p => if p.1 = k then (k, v) else p)

/-- RoomMeta mirrors the objects stored in `roomMetadata`
(src/backend/index.js lines 180-190). -/
structure RoomMeta where
  createdAt : Nat
  lastActivity : Nat
  host : String
deriving Repr, DecidableEq

/-- SignalData mirrors the `data` payload of a `signal` event; `to` is the
optional target socket id (src/backend/index.js line 205), and
`claimedSender` stands for any sender-identity field a client chooses to
embed inside the payload (the relay never reads it). `payload` is the
opaque rest of the message. -/
structure SignalData where
  type : String
  «to» : Option String
  claimedSender : Option String
  payload : Nat
deriving Repr, DecidableEq

/-- SEvent is the grammar of events the backend emits to clients.
`hostTransferred` appears in the spec's event table; it is included so that
its absence from every handler's output is expressible. -/
inductive SEvent where
  | allUsers (users : List String)
  | userJoined (id : String)
  | signal (sender : String) (data : SignalData)
  | mediaStatusChange (senderId : String) (audioEnabled videoEnabled : Bool)
  | chatMessage (sender : String) (message : String)
  | userLeft (id : String)
  | meetingEnded
  | roomExpired
  | hostTransferred
deriving Repr, DecidableEq

/-- Emit is one delivered event: the receiving socket id paired with the
event it receives. -/
abbrev Emit := String × SEvent

/-- ServerState holds the relay's mutable state: the connected socket ids,
the adapter's room-membership map (join order preserved), the
`roomMetadata` map (line 107) and the `roomHosts` object (line 171). -/
structure ServerState where
  connected : List String
  rooms : List (String × List String)
  roomMetadata : List (String × RoomMeta)
  roomHosts : List (String × String)
deriving Repr, DecidableEq

def initialServer : ServerState := ⟨[], [], [], []⟩

/-- ROOM_EXPIRY_TIME is 24 hours in milliseconds (line 110). -/
def ROOM_EXPIRY_TIME : Nat := 24 * 60 * 60 * 1000

/-- membersOf s r is `io.sockets.adapter.rooms.get(r) || []` as a list in
join order. -/
def membersOf (s : ServerState) (r : String) : List String :=
  (lookupA s.rooms r).getD []

/-- ioTo s t is the recipient set of `io.to(t).emit(...)`: the members of a
room named t plus, when t is a connected socket id, that socket itself
(its personal room). -/
def ioTo (s : ServerState) (t : String) : List String :=
  membersOf s t ++ (if t ∈ s.connected then [t] else [])

/-- socketRooms s sid is `socket.rooms`: the personal room first, then
every room the socket has joined. -/
def socketRooms (s : ServerState) (sid : String) : List String :=
  sid :: (s.rooms.filter (fun p => sid ∈ p.2)).map Prod.fst

/-- joinAdapter is `socket.join(roomId)`: adds the socket to the room,
creating the room if needed; a second join of the same room is a no-op. -/
def joinAdapter (s : ServerState) (sid r : String) : ServerState :=
  match lookupA s.rooms r with
  | some ms =>
      if sid ∈ ms then s
      else { s with rooms := updateAssoc s.rooms r (ms ++ [sid]) }
  | none => { s with rooms := s.rooms ++ [(r, [sid])] }

/-- connect registers a new socket (the `connection` event, line 172). -/
def connect (s : ServerState) (sid : String) : ServerState :=
  { s with connected := s.connected ++ [sid] }

/-- ensureMeta is lines 180-190: create the metadata entry on first join
(the joiner becomes `host`), otherwise refresh `lastActivity`. -/
def ensureMeta (s : ServerState) (r sid : String) (now : Nat) :
    ServerState :=
  match lookupA s.roomMetadata r with
  | none =>
      { s with roomMetadata := s.roomMetadata ++ [(r, ⟨now, now, sid⟩)] }
  | some md =>
      { s with roomMetadata :=
          updateAssoc s.roomMetadata r { md with lastActivity := now } }

/-- joinRoom is the `join-room` handler (lines 175-201): join the adapter
room, create or touch the room metadata, then emit `all-users` to the
joiner and `user-joined` to the others. -/
def joinRoom (s : ServerState) (sid r : String) (now : Nat) :
    ServerState × List Emit :=
  let s2 := ensureMeta (joinAdapter s sid r) r sid now
  let clients := (membersOf s2 r).filter (· ≠ sid)
  (s2, (sid, SEvent.allUsers clients) ::
        clients.map (fun m => (m, SEvent.userJoined sid)))

/-- signalHandler is the `signal` handler (lines 203-212): with a target it
relays to `io.to(data.to)`, otherwise to the other members of the room;
the delivered event is always tagged `sender = socket.id`. -/
def signalHandler (s : ServerState) (sid r : String) (d : SignalData) :
    ServerState × List Emit :=
  match d.«to» with
  | some t => (s, (ioTo s t).map (fun m => (m, SEvent.signal sid d)))
  | none =>
      (s, ((membersOf s r).filter (· ≠ sid)).map
            (fun m => (m, SEvent.signal sid d)))

/-- touchMeta is `metadata.lastActivity = Date.now()` on an existing
metadata entry (lines 237-241); absent entries are left alone. -/
def touchMeta (s : ServerState) (r : String) (now : Nat) : ServerState :=
  match lookupA s.roomMetadata r with
  | none => s
  | some md =>
      { s with roomMetadata :=
          updateAssoc s.roomMetadata r { md with lastActivity := now } }

/-- leaveEmitStep is the body of the first `disconnecting` loop (lines
231-243): for a non-personal room, emit `user-left` to the other members
and refresh the room's metadata. -/
def leaveEmitStep (sid : String) (now : Nat)
    (acc : ServerState × List Emit) (r : String) :
    ServerState × List Emit :=
  if r ≠ sid then
    (touchMeta acc.1 r now,
     acc.2 ++ ((membersOf acc.1 r).filter (· ≠ sid)).map
        (fun m => (m, SEvent.userLeft sid)))
  else acc

/-- hostCheckStep is the body of the second `disconnecting` loop (lines
245-251): when `roomHosts[roomId]` names this socket, emit
`meeting-ended` to the others and delete the entry. Nothing in
src/backend/index.js ever assigns to `roomHosts`. -/
def hostCheckStep (sid : String) (acc : ServerState × List Emit)
    (r : String) : ServerState × List Emit :=
  match lookupA acc.1.roomHosts r with
  | some h =>
      if h = sid then
        ({ acc.1 with
            roomHosts := acc.1.roomHosts.filter (fun p => p.1 ≠ r) },
         acc.2 ++ ((membersOf acc.1 r).filter (· ≠ sid)).map
            (fun m => (m, SEvent.meetingEnded)))
      else acc
  | none => acc

/-- disconnecting is the `disconnecting` handler (lines 230-252): the
`user-left` loop followed by the host-check loop, both iterating over
`socket.rooms`. -/
def disconnecting (s : ServerState) (sid : String) (now : Nat) :
    ServerState × List Emit :=
  let rs := socketRooms s sid
  rs.foldl (hostCheckStep sid) (rs.foldl (leaveEmitStep sid now) (s, []))

/-- removeSocket is the transport-level effect of a disconnect: the socket
leaves every room and the connected set. -/
def removeSocket (s : ServerState) (sid : String) : ServerState :=
  { s with
    connected := s.connected.filter (· ≠ sid),
    rooms := s.rooms.map (fun p => (p.1, p.2.filter (· ≠ sid))) }

/-- disconnect runs the `disconnecting` handler and then removes the
socket from the adapter. -/
def disconnect (s : ServerState) (sid : String) (now : Nat) :
    ServerState × List Emit :=
  let r1 := disconnecting s sid now
  (removeSocket r1.1 sid, r1.2)

/-- disconnectStep disconnects one socket and appends its emitted
events. -/
def disconnectStep (now : Nat) (acc : ServerState × List Emit)
    (sid : String) : ServerState × List Emit :=
  let r := disconnect acc.1 sid now
  (r.1, acc.2 ++ r.2)

/-- disconnectAll disconnects the listed sockets in order, accumulating
their emitted events (`io.in(roomId).disconnectSockets(true)`). -/
def disconnectAll (s : ServerState) (sids : List String) (now : Nat) :
    ServerState × List Emit :=
  sids.foldl (disconnectStep now) (s, [])

/-- metaDrop is `roomMetadata.delete(roomId)` (line 118). -/
def metaDrop (s : ServerState) (r : String) : ServerState :=
  { s with roomMetadata := s.roomMetadata.filter (fun p => p.1 ≠ r) }

/-- expireRoomStep is the body of the cleanup loop for one room id (lines
115-123): when the entry still exists and its last-activity age exceeds
ROOM_EXPIRY_TIME, delete the metadata, emit `room-expired` to the room,
then force-disconnect its members. -/
def expireRoomStep (now : Nat) (acc : ServerState × List Emit)
    (r : String) : ServerState × List Emit :=
  match lookupA acc.1.roomMetadata r with
  | none => acc
  | some md =>
      if now - md.lastActivity > ROOM_EXPIRY_TIME then
        let s1 := metaDrop acc.1 r
        let notified := (ioTo s1 r).map (fun m => (m, SEvent.roomExpired))
        let r2 := disconnectAll s1 (membersOf s1 r) now
        (r2.1, acc.2 ++ notified ++ r2.2)
      else acc

/-- cleanupExpiredRooms is the hourly sweep (lines 113-125), iterating
over the metadata keys present when the sweep starts. -/
def cleanupExpiredRooms (s : ServerState) (now : Nat) :
    ServerState × List Emit :=
  (s.roomMetadata.map Prod.fst).foldl (expireRoomStep now) (s, [])

/-- Step is one backend event: a fresh connection, or one handler firing
for a connected socket, or the periodic sweep. -/
inductive Step : ServerState → ServerState → Prop where
  | connect (s : ServerState) (sid : String) (h : sid ∉ s.connected) :
      Step s (connect s sid)
  | join (s : ServerState) (sid r : String) (now : Nat)
      (h : sid ∈ s.connected) : Step s (joinRoom s sid r now).1
  | signal (s : ServerState) (sid r : String) (d : SignalData)
      (h : sid ∈ s.connected) : Step s (signalHandler s sid r d).1
  | disconnect (s : ServerState) (sid : String) (now : Nat)
      (h : sid ∈ s.connected) : Step s (disconnect s sid now).1
  | cleanup (s : ServerState) (now : Nat) :
      Step s (cleanupExpiredRooms s now).1

/-- Reachable states of the relay, starting from the empty server. -/
inductive Reachable : ServerState → Prop where
  | init : Reachable initialServer
  | step {s s' : ServerState} : Reachable s → Step s s' → Reachable s'

/-- senderTag extracts the authoritative sender field of a delivered
`signal` event, if the event is one. -/
def senderTag : SEvent → Option String
  | SEvent.signal sdr _ => some sdr
  | _ => none

/-
  Client model: src/frontend/src/utils/connection.tsx.

  The per-remote-peer negotiation state tracked by the hook is: whether
  `pc.remoteDescription` is set, the ICE-candidate queue
  `candidateQueueRef.current[sender]`, and the list of candidates handed
  to `pc.addIceCandidate`, in call order. Candidates are identified by
  opaque naturals.
-/

/-- NegSig is an inbound signal for one negotiator, as dispatched by
handleSignal on `data.type` (lines 145, 177, 201). -/
inductive NegSig where
  | offer
  | answer
  | cand (c : Nat)
deriving Repr, DecidableEq

/-- NegState is the observable negotiation state for one remote peer. -/
structure NegState where
  remoteDescSet : Bool
  queue : List Nat
  applied : List Nat
deriving Repr, DecidableEq

def initNeg : NegState := ⟨false, [], []⟩

/-- negStep is one handleSignal dispatch for this peer: an offer or
answer sets the remote description and then drains the queue in order
(lines 146-168 and 186-200); a candidate is applied immediately when the
remote description is set and queued otherwise (lines 201-213). -/
def negStep (st : NegState) (e : NegSig) : NegState :=
  match e with
  | NegSig.offer => ⟨true, [], st.applied ++ st.queue⟩
  | NegSig.answer => ⟨true, [], st.applied ++ st.queue⟩
  | NegSig.cand c =>
      if st.remoteDescSet then { st with applied := st.applied ++ [c] }
      else { st with queue := st.queue ++ [c] }

/-- negRun folds a whole inbound-signal sequence from the initial state. -/
def negRun (tr : List NegSig) : NegState := tr.foldl negStep initNeg

/-- candidatesOf lists the candidates of a signal sequence in arrival
order. -/
def candidatesOf (tr : List NegSig) : List Nat :=
  tr.filterMap (fun e => match e with | NegSig.cand c => some c | _ => none)

/-- OutMsg is a signaling message the client emits toward a peer. -/
inductive OutMsg where
  | offerTo (peer : String)
  | answerTo (peer : String)
deriving Repr, DecidableEq

/-- OrchState is the orchestrator state of useWebRTCConnection: the
`peersRef.current` map (peer id to negotiation state) and the emitted
messages in order. -/
structure OrchState where
  peers : List (String × NegState)
  sent : List OutMsg
deriving Repr, DecidableEq

def initOrch : OrchState := ⟨[], []⟩

/-- handleUserJoined (lines 108-128): if a peer connection already exists
the handler returns at once; otherwise it creates one, records it in
peersRef (synchronously, before any await) and sends exactly one offer. -/
def handleUserJoined (o : OrchState) (sid : String) : OrchState :=
  if (lookupA o.peers sid).isSome then o
  else ⟨o.peers ++ [(sid, initNeg)], o.sent ++ [OutMsg.offerTo sid]⟩

/-- InData is the payload of an inbound `signal` event on the client:
the signal kind plus the optional `data.to` target. -/
structure InData where
  sig : NegSig
  «to» : Option String
deriving Repr, DecidableEq

/-- handleSignalBody (lines 138-213): look up the sender's negotiator,
lazily creating it when absent (lines 139-144), then dispatch the signal
to it; an offer also produces an outbound answer (lines 169-176). -/
def handleSignalBody (o : OrchState) (sender : String) (sig : NegSig) :
    OrchState :=
  let peers1 :=
    if (lookupA o.peers sender).isSome then o.peers
    else o.peers ++ [(sender, initNeg)]
  let st := (lookupA peers1 sender).getD initNeg
  let sent' :=
    match sig with
    | NegSig.offer => o.sent ++ [OutMsg.answerTo sender]
    | _ => o.sent
  ⟨updateAssoc peers1 sender (negStep st sig), sent'⟩

/-- handleSignal (lines 130-214) first drops signals targeted at someone
else (line 137), then runs the body. -/
def handleSignal (selfId : String) (o : OrchState) (sender : String)
    (d : InData) : OrchState :=
  match d.«to» with
  | some t => if t ≠ selfId then o else handleSignalBody o sender d.sig
  | none => handleSignalBody o sender d.sig

/-- handleUserLeft (lines 216-224): close and drop the departed peer's
negotiator, if any. -/
def handleUserLeft (o : OrchState) (sid : String) : OrchState :=
  if (lookupA o.peers sid).isSome then
    ⟨o.peers.filter (fun p => p.1 ≠ sid), o.sent⟩
  else o

/-- handleAllUsers (lines 242-247) runs handleUserJoined for each listed
existing member. -/
def handleAllUsers (o : OrchState) (users : List String) : OrchState :=
  users.foldl handleUserJoined o

/-- CEvent is one socket event delivered to the client hook. -/
inductive CEvent where
  | userJoined (sid : String)
  | signalRecv (sender : String) (d : InData)
  | userLeft (sid : String)
  | allUsers (users : List String)
deriving Repr, DecidableEq

/-- cstep dispatches one delivered event to its registered handler
(lines 226-247). -/
def cstep (selfId : String) (o : OrchState) (e : CEvent) : OrchState :=
  match e with
  | CEvent.userJoined sid => handleUserJoined o sid
  | CEvent.signalRecv sender d => handleSignal selfId o sender d
  | CEvent.userLeft sid => handleUserLeft o sid
  | CEvent.allUsers users => handleAllUsers o users

/-- crun folds a delivered-event sequence from the empty orchestrator. -/
def crun (selfId : String) (tr : List CEvent) : OrchState :=
  tr.foldl (cstep selfId) initOrch

/-
  Media-acquisition model: connection.tsx lines 59-78 and 235-239.
-/

/-- MediaResult is the outcome of getUserMedia: a stream or a denial. -/
inductive MediaResult where
  | ok (streamId : Nat)
  | err
deriving Repr, DecidableEq

/-- getStreamResult is the getStream effect on the localStream state
(lines 62-71): on success the stream is stored; on failure the error is
only logged and localStream stays null. -/
def getStreamResult : MediaResult → Option Nat
  | MediaResult.ok s => some s
  | MediaResult.err => none

/-- ClientInit is the input of the join effect (line 77). -/
structure ClientInit where
  hasSocket : Bool
  hasRoom : Bool
  localStream : Option Nat
deriving Repr, DecidableEq

/-- joinEffectEmits models the second effect (lines 77-239): it returns
immediately unless socket, room and localStream are all present (line
78), and otherwise registers handlers and emits exactly one `join-room`
(line 237). -/
def joinEffectEmits (c : ClientInit) : List String :=
  if c.hasSocket && c.hasRoom && c.localStream.isSome then ["join-room"]
  else []

/-
  Invariant predicates for the relay state.
-/

/-- MetaPred r P s says the metadata entry for room r exists and
satisfies P. -/
def MetaPred (r : String) (P : RoomMeta → Prop) (s : ServerState) : Prop :=
  ∃ md, lookupA s.roomMetadata r = some md ∧ P md

/-- ServerInv collects the structural invariants of the relay state: the
room map and the metadata map have unique keys, and every room with a
member has a metadata entry (whose single `host` field is the recorded
host). -/
def ServerInv (s : ServerState) : Prop :=
  (s.rooms.map Prod.fst).Nodup
  ∧ (s.roomMetadata.map Prod.fst).Nodup
  ∧ ∀ r ms, (r, ms) ∈ s.rooms → ms ≠ [] → r ∈ s.roomMetadata.map Prod.fst

/-
  Concrete states used by counterexamples and witnesses.
-/

/-- exS2 is the server after sockets a and b connect. -/
def exS2 : ServerState := connect (connect initialServer "a") "b"

/-- exS4 is exS2 after a joins room r and then b joins room r. -/
def exS4 : ServerState :=
  (joinRoom (joinRoom exS2 "a" "r" 0).1 "b" "r" 1).1

/-- exS5 is exS4 after socket a (the recorded host of r) disconnects. -/
def exS5 : ServerState × List Emit := disconnect exS4 "a" 2

/-- exT4 is a server with socket a in room r1 and socket c in room r2. -/
def exT4 : ServerState :=
  (joinRoom (joinRoom (connect (connect initialServer "a") "c")
      "a" "r1" 0).1 "c" "r2" 0).1

/-- dSpoof is a targeted signal payload carrying a forged inner sender. -/
def dSpoof : SignalData := ⟨"offer", some "c", some "mallory", 0⟩

/-- dGhost is a signal payload targeted at an id that matches no socket
and no room. -/
def dGhost : SignalData := ⟨"offer", some "zz", none, 0⟩

/-- exT5 is the relay output for dSpoof sent by a in room r1. -/
def exT5 : ServerState × List Emit := signalHandler exT4 "a" "r1" dSpoof

/-- exV3 is the server and emits after the only member of room r
disconnects: the room is empty but its metadata survives. -/
def exV3 : ServerState × List Emit :=
  disconnect (joinRoom (connect initialServer "a") "a" "r" 0).1 "a" 5

/-- exW is a room r whose metadata is a day stale, with one member. -/
def exW : ServerState :=
  ⟨["a"], [("r", ["a"])], [("r", ⟨0, 0, "a"⟩)], []⟩

/-- exR2 is the server after socket a connects and joins room r. -/
def exR2 : ServerState :=
  (joinRoom (connect initialServer "a") "a" "r" 0).1

/-- exO is an orchestrator that has already created a negotiator for
peer p and sent it an offer. -/
def exO : OrchState := handleUserJoined initOrch "p"

/-- trC2 is a signal sequence that queues two candidates, drains them on
the remote offer, then applies a third directly. -/
def trC2 : List NegSig :=
  [NegSig.cand 1, NegSig.cand 2, NegSig.offer, NegSig.cand 3]

/-
  Association-list lemmas.
-/

theorem lookupA_cons {β : Type} (k' : String) (v' : β)
    (t : List (String × β)) (k : String) :
    lookupA ((k', v') :: t) k = if k' = k then some v' else lookupA t k :=
  rfl

theorem lookupA_append_some {β : Type} {l : List (String × β)} {k : String}
    {v : β} (h : lookupA l k = some v) (l' : List (String × β)) :
    lookupA (l ++ l') k = some v := by
  induction l with
  | nil => simp [lookupA] at h
  | cons p t ih =>
      obtain ⟨k', v'⟩ := p
      by_cases hk : k' = k
      · rw [lookupA_cons, if_pos hk] at h
        rw [List.cons_append, lookupA_cons, if_pos hk]
        exact h
      · rw [lookupA_cons, if_neg hk] at h
        rw [List.cons_append, lookupA_cons, if_neg hk]
        exact ih h

theorem lookupA_append_none {β : Type} {l : List (String × β)} {k : String}
    (h : lookupA l k = none) (l' : List (String × β)) :
    lookupA (l ++ l') k = lookupA l' k := by
  induction l with
  | nil => rfl
  | cons p t ih =>
      obtain ⟨k', v'⟩ := p
      by_cases hk : k' = k
      · rw [lookupA_cons, if_pos hk] at h
        exact absurd h (by simp)
      · rw [lookupA_cons, if_neg hk] at h
        rw [List.cons_append, lookupA_cons, if_neg hk]
        exact ih h

theorem lookupA_isSome_iff {β : Type} {l : List (String × β)} {k : String} :
    (lookupA l k).isSome ↔ k ∈ l.map Prod.fst := by
  induction l with
  | nil => simp [lookupA]
  | cons p t ih =>
      obtain ⟨k', v'⟩ := p
      by_cases hk : k' = k
      · simp [lookupA_cons, hk]
      · simp [lookupA_cons, hk, ih, Ne.symm hk]

theorem lookupA_none_iff {β : Type} {l : List (String × β)} {k : String} :
    lookupA l k = none ↔ k ∉ l.map Prod.fst := by
  rw [← lookupA_isSome_iff]
  cases lookupA l k <;> simp

theorem updateAssoc_keys {β : Type} (l : List (String × β)) (k : String)
    (v : β) : (updateAssoc l k v).map Prod.fst = l.map Prod.fst := by
  induction l with
  | nil => rfl
  | cons p t ih =>
      by_cases h : p.1 = k
      · simp [updateAssoc, h] at ih ⊢
        exact ih
      · simp [updateAssoc, h] at ih ⊢
        exact ih

theorem lookupA_updateAssoc_ne {β : Type} {l : List (String × β)}
    {k k' : String} (v : β) (h : k' ≠ k) :
    lookupA (updateAssoc l k v) k' = lookupA l k' := by
  induction l with
  | nil => rfl
  | cons p t ih =>
      obtain ⟨a, b⟩ := p
      by_cases hak : a = k
      · simp only [updateAssoc, List.map_cons]
        rw [if_pos (by simpa using hak)]
        rw [lookupA_cons, if_neg (Ne.symm h), lookupA_cons,
          if_neg (by rw [hak]; exact Ne.symm h)]
        exact ih
      · simp only [updateAssoc, List.map_cons]
        rw [if_neg (by simpa using hak)]
        by_cases hk' : a = k'
        · rw [lookupA_cons, if_pos hk', lookupA_cons, if_pos hk']
        · rw [lookupA_cons, if_neg hk', lookupA_cons, if_neg hk']
          exact ih

theorem lookupA_updateAssoc_self {β : Type} {l : List (String × β)}
    {k : String} {w : β} (v : β) (h : lookupA l k = some w) :
    lookupA (updateAssoc l k v) k = some v := by
  induction l with
  | nil => simp [lookupA] at h
  | cons p t ih =>
      obtain ⟨a, b⟩ := p
      by_cases hak : a = k
      · simp only [updateAssoc, List.map_cons]
        rw [if_pos (by simpa using hak)]
        rw [lookupA_cons, if_pos rfl]
      · simp only [updateAssoc, List.map_cons]
        rw [if_neg (by simpa using hak)]
        rw [lookupA_cons, if_neg hak] at h
        rw [lookupA_cons, if_neg hak]
        exact ih h

theorem mem_updateAssoc {β : Type} {l : List (String × β)} {k : String}
    {v : β} {p : String × β} (h : p ∈ updateAssoc l k v) :
    p = (k, v) ∨ p ∈ l := by
  unfold updateAssoc at h
  rcases List.mem_map.mp h with ⟨q, hq, he⟩
  by_cases hqk : q.1 = k
  · rw [if_pos hqk] at he
    exact Or.inl he.symm
  · rw [if_neg hqk] at he
    exact Or.inr (he ▸ hq)

theorem lookupA_filter_self {β : Type} (l : List (String × β))
    (k : String) : lookupA (l.filter (fun p => p.1 ≠ k)) k = none := by
  induction l with
  | nil => rfl
  | cons p t ih =>
      by_cases h : p.1 = k
      · simp only [List.filter_cons, h]
        simpa using ih
      · simp only [List.filter_cons]
        rw [if_pos (by simpa using h)]
        rw [lookupA_cons, if_neg h]
        exact ih

theorem lookupA_filter_ne {β : Type} {k r : String} (h : k ≠ r)
    (l : List (String × β)) :
    lookupA (l.filter (fun p => p.1 ≠ r)) k = lookupA l k := by
  induction l with
  | nil => rfl
  | cons p t ih =>
      obtain ⟨a, b⟩ := p
      by_cases har : a = r
      · simp only [List.filter_cons]
        rw [if_neg (by simpa using har)]
        rw [lookupA_cons, if_neg (by rw [har]; exact Ne.symm h)]
        exact ih
      · simp only [List.filter_cons]
        rw [if_pos (by simpa using har)]
        by_cases hak : a = k
        · rw [lookupA_cons, if_pos hak, lookupA_cons, if_pos hak]
        · rw [lookupA_cons, if_neg hak, lookupA_cons, if_neg hak]
          exact ih

theorem mem_keys_filter {β : Type} {l : List (String × β)} {k r : String}
    (hk : k ∈ l.map Prod.fst) (h : k ≠ r) :
    k ∈ (l.filter (fun p => p.1 ≠ r)).map Prod.fst := by
  rw [← lookupA_isSome_iff] at hk ⊢
  rw [lookupA_filter_ne h]
  exact hk

theorem countP_keys_eq_one {β : Type} {l : List (String × β)} {k : String}
    (hnd : (l.map Prod.fst).Nodup) (hk : k ∈ l.map Prod.fst) :
    l.countP (fun p => decide (p.1 = k)) = 1 := by
  induction l with
  | nil => simp at hk
  | cons p t ih =>
      rw [List.map_cons, List.nodup_cons] at hnd
      rw [List.map_cons, List.mem_cons] at hk
      rw [List.countP_cons]
      by_cases h : p.1 = k
      · have ht : t.countP (fun q => decide (q.1 = k)) = 0 := by
          rw [List.countP_eq_zero]
          intro q hq hqk
          rw [decide_eq_true_iff] at hqk
          exact hnd.1 (h ▸ hqk ▸ List.mem_map_of_mem Prod.fst hq)
        simp [h, ht]
      · rcases hk with hk | hk
        · exact absurd hk.symm h
        · simp [h, ih hnd.2 hk]

theorem lookupA_of_mem_nodup {β : Type} {l : List (String × β)}
    {k : String} {v : β} (hnd : (l.map Prod.fst).Nodup) (h : (k, v) ∈ l) :
    lookupA l k = some v := by
  induction l with
  | nil => simp at h
  | cons p t ih =>
      obtain ⟨a, b⟩ := p
      rw [List.map_cons, List.nodup_cons] at hnd
      rcases List.mem_cons.mp h with h | h
      · rw [← h, lookupA_cons, if_pos rfl]
      · have hk : k ∈ t.map Prod.fst := by
          simpa using List.mem_map_of_mem Prod.fst h
        have hpk : a ≠ k := fun he => hnd.1 (he ▸ hk)
        rw [lookupA_cons, if_neg hpk]
        exact ih hnd.2 h

theorem lookupA_map_val {β γ : Type} (f : β → γ)
    (l : List (String × β)) (k : String) :
    lookupA (l.map (fun p => (p.1, f p.2))) k = (lookupA l k).map f := by
  induction l with
  | nil => rfl
  | cons p t ih =>
      obtain ⟨a, b⟩ := p
      by_cases h : a = k
      · simp only [List.map_cons]
        rw [lookupA_cons, if_pos h, lookupA_cons, if_pos h]
        rfl
      · simp only [List.map_cons]
        rw [lookupA_cons, if_neg h, lookupA_cons, if_neg h]
        exact ih

/-- foldl_inv propagates an invariant through a left fold. -/
theorem foldl_inv {α β : Type} (P : α → Prop) (f : α → β → α)
    (hstep : ∀ a b, P a → P (f a b)) :
    ∀ (l : List β) (a : α), P a → P (l.foldl f a)
  | [], _, h => h
  | b :: t, a, h => foldl_inv P f hstep t (f a b) (hstep a b h)

/-
  Field-preservation lemmas for the relay operations.
-/

theorem membersOf_congr {s1 s2 : ServerState} (h : s1.rooms = s2.rooms)
    (r : String) : membersOf s1 r = membersOf s2 r := by
  unfold membersOf
  rw [h]

theorem touchMeta_rooms (s : ServerState) (r : String) (now : Nat) :
    (touchMeta s r now).rooms = s.rooms := by
  unfold touchMeta
  split <;> rfl

theorem touchMeta_connected (s : ServerState) (r : String) (now : Nat) :
    (touchMeta s r now).connected = s.connected := by
  unfold touchMeta
  split <;> rfl

theorem touchMeta_roomHosts (s : ServerState) (r : String) (now : Nat) :
    (touchMeta s r now).roomHosts = s.roomHosts := by
  unfold touchMeta
  split <;> rfl

theorem touchMeta_keys (s : ServerState) (r : String) (now : Nat) :
    (touchMeta s r now).roomMetadata.map Prod.fst
      = s.roomMetadata.map Prod.fst := by
  unfold touchMeta
  split
  · rfl
  · simp [updateAssoc_keys]

theorem touchMeta_metaPred {r' : String} {P : RoomMeta → Prop} {now : Nat}
    (hP : ∀ md, P md → P { md with lastActivity := now })
    {s : ServerState} (rr : String) (h : MetaPred r' P s) :
    MetaPred r' P (touchMeta s rr now) := by
  obtain ⟨md', hl, hp⟩ := h
  unfold touchMeta
  cases hm : lookupA s.roomMetadata rr with
  | none => exact ⟨md', hl, hp⟩
  | some md =>
      by_cases hrr : rr = r'
      · subst hrr
        rw [hm] at hl
        cases hl
        exact ⟨{ md' with lastActivity := now },
          lookupA_updateAssoc_self _ hm, hP md' hp⟩
      · exact ⟨md', by rw [lookupA_updateAssoc_ne _ (Ne.symm hrr)]; exact hl,
          hp⟩

theorem ensureMeta_rooms (s : ServerState) (r sid : String) (now : Nat) :
    (ensureMeta s r sid now).rooms = s.rooms := by
  unfold ensureMeta
  split <;> rfl

theorem ensureMeta_connected (s : ServerState) (r sid : String)
    (now : Nat) : (ensureMeta s r sid now).connected = s.connected := by
  unfold ensureMeta
  split <;> rfl

theorem ensureMeta_roomHosts (s : ServerState) (r sid : String)
    (now : Nat) : (ensureMeta s r sid now).roomHosts = s.roomHosts := by
  unfold ensureMeta
  split <;> rfl

theorem ensureMeta_keys_superset (s : ServerState) (r sid : String)
    (now : Nat) {k : String} (h : k ∈ s.roomMetadata.map Prod.fst) :
    k ∈ (ensureMeta s r sid now).roomMetadata.map Prod.fst := by
  unfold ensureMeta
  split
  · simp only [List.map_append]
    exact List.mem_append_left _ h
  · rw [updateAssoc_keys]
    exact h

theorem ensureMeta_key_self (s : ServerState) (r sid : String)
    (now : Nat) :
    r ∈ (ensureMeta s r sid now).roomMetadata.map Prod.fst := by
  unfold ensureMeta
  cases hm : lookupA s.roomMetadata r with
  | none => simp
  | some md =>
      rw [updateAssoc_keys]
      rw [← lookupA_isSome_iff, hm]
      rfl

theorem ensureMeta_keys_nodup (s : ServerState) (r sid : String)
    (now : Nat) (h : (s.roomMetadata.map Prod.fst).Nodup) :
    ((ensureMeta s r sid now).roomMetadata.map Prod.fst).Nodup := by
  unfold ensureMeta
  cases hm : lookupA s.roomMetadata r with
  | none =>
      have hr : r ∉ s.roomMetadata.map Prod.fst := lookupA_none_iff.mp hm
      simp only [List.map_append, List.map_cons, List.map_nil]
      rw [List.nodup_append]
      refine ⟨h, List.nodup_singleton r, ?_⟩
      intro a ha hb
      rw [List.mem_singleton] at hb
      exact hr (hb ▸ ha)
  | some md =>
      rw [updateAssoc_keys]
      exact h

theorem joinAdapter_connected (s : ServerState) (sid r : String) :
    (joinAdapter s sid r).connected = s.connected := by
  unfold joinAdapter
  split
  · split <;> rfl
  · rfl

theorem joinAdapter_roomHosts (s : ServerState) (sid r : String) :
    (joinAdapter s sid r).roomHosts = s.roomHosts := by
  unfold joinAdapter
  split
  · split <;> rfl
  · rfl

theorem joinAdapter_meta (s : ServerState) (sid r : String) :
    (joinAdapter s sid r).roomMetadata = s.roomMetadata := by
  unfold joinAdapter
  split
  · split <;> rfl
  · rfl

theorem joinAdapter_rooms_nodup (s : ServerState) (sid r : String)
    (h : (s.rooms.map Prod.fst).Nodup) :
    ((joinAdapter s sid r).rooms.map Prod.fst).Nodup := by
  cases hm : lookupA s.rooms r with
  | none =>
      have hr : r ∉ s.rooms.map Prod.fst := lookupA_none_iff.mp hm
      simp only [joinAdapter, hm]
      simp only [List.map_append, List.map_cons, List.map_nil]
      rw [List.nodup_append]
      refine ⟨h, List.nodup_singleton r, ?_⟩
      intro a ha hb
      rw [List.mem_singleton] at hb
      exact hr (hb ▸ ha)
  | some ms =>
      simp only [joinAdapter, hm]
      by_cases hs : sid ∈ ms
      · rw [if_pos hs]
        exact h
      · rw [if_neg hs]
        show ((updateAssoc s.rooms r (ms ++ [sid])).map Prod.fst).Nodup
        rw [updateAssoc_keys]
        exact h

theorem mem_joinAdapter_rooms {s : ServerState} {sid r : String}
    {p : String × List String} (h : p ∈ (joinAdapter s sid r).rooms) :
    p.1 = r ∨ p ∈ s.rooms := by
  revert h
  cases hm : lookupA s.rooms r with
  | none =>
      simp only [joinAdapter, hm]
      intro h
      rcases List.mem_append.mp h with h | h
      · exact Or.inr h
      · rw [List.mem_singleton] at h
        exact Or.inl (by rw [h])
  | some ms =>
      simp only [joinAdapter, hm]
      by_cases hs : sid ∈ ms
      · rw [if_pos hs]
        exact Or.inr
      · rw [if_neg hs]
        intro h
        rcases mem_updateAssoc h with h | h
        · exact Or.inl (by rw [h])
        · exact Or.inr h

theorem signalHandler_state (s : ServerState) (sid r : String)
    (d : SignalData) : (signalHandler s sid r d).1 = s := by
  unfold signalHandler
  split <;> rfl

theorem leaveEmitStep_rooms (sid : String) (now : Nat)
    (acc : ServerState × List Emit) (r : String) :
    (leaveEmitStep sid now acc r).1.rooms = acc.1.rooms := by
  unfold leaveEmitStep
  split
  · exact touchMeta_rooms _ _ _
  · rfl

theorem leaveEmitStep_connected (sid : String) (now : Nat)
    (acc : ServerState × List Emit) (r : String) :
    (leaveEmitStep sid now acc r).1.connected = acc.1.connected := by
  unfold leaveEmitStep
  split
  · exact touchMeta_connected _ _ _
  · rfl

theorem leaveEmitStep_roomHosts (sid : String) (now : Nat)
    (acc : ServerState × List Emit) (r : String) :
    (leaveEmitStep sid now acc r).1.roomHosts = acc.1.roomHosts := by
  unfold leaveEmitStep
  split
  · exact touchMeta_roomHosts _ _ _
  · rfl

theorem leaveEmitStep_keys (sid : String) (now : Nat)
    (acc : ServerState × List Emit) (r : String) :
    (leaveEmitStep sid now acc r).1.roomMetadata.map Prod.fst
      = acc.1.roomMetadata.map Prod.fst := by
  unfold leaveEmitStep
  split
  · exact touchMeta_keys _ _ _
  · rfl

theorem leaveEmitStep_metaPred {r' : String} {P : RoomMeta → Prop}
    {now : Nat} (hP : ∀ md, P md → P { md with lastActivity := now })
    (sid : String) (acc : ServerState × List Emit) (r : String)
    (h : MetaPred r' P acc.1) :
    MetaPred r' P (leaveEmitStep sid now acc r).1 := by
  unfold leaveEmitStep
  split
  · exact touchMeta_metaPred hP r h
  · exact h

theorem leaveEmitStep_emits (sid : String) (now : Nat)
    (acc : ServerState × List Emit) (r : String) :
    ∃ es, (leaveEmitStep sid now acc r).2 = acc.2 ++ es
      ∧ ∀ e ∈ es, e.2 = SEvent.userLeft sid := by
  unfold leaveEmitStep
  split
  · refine ⟨_, rfl, ?_⟩
    intro e he
    rcases List.mem_map.mp he with ⟨m, _, hme⟩
    rw [← hme]
  · exact ⟨[], by simp, by simp⟩

theorem hostCheckStep_meta (sid : String) (acc : ServerState × List Emit)
    (r : String) :
    (hostCheckStep sid acc r).1.roomMetadata = acc.1.roomMetadata := by
  unfold hostCheckStep
  split
  · split <;> rfl
  · rfl

theorem hostCheckStep_rooms (sid : String) (acc : ServerState × List Emit)
    (r : String) :
    (hostCheckStep sid acc r).1.rooms = acc.1.rooms := by
  unfold hostCheckStep
  split
  · split <;> rfl
  · rfl

theorem hostCheckStep_connected (sid : String)
    (acc : ServerState × List Emit) (r : String) :
    (hostCheckStep sid acc r).1.connected = acc.1.connected := by
  unfold hostCheckStep
  split
  · split <;> rfl
  · rfl

theorem hostCheckStep_of_empty {sid : String}
    {acc : ServerState × List Emit} (r : String)
    (h : acc.1.roomHosts = []) : hostCheckStep sid acc r = acc := by
  unfold hostCheckStep
  rw [h]
  rfl

theorem fold_hostCheck_empty (sid : String) :
    ∀ (rs : List String) (acc : ServerState × List Emit),
      acc.1.roomHosts = [] → rs.foldl (hostCheckStep sid) acc = acc
  | [], _, _ => rfl
  | r :: t, acc, h => by
      rw [List.foldl_cons, hostCheckStep_of_empty r h]
      exact fold_hostCheck_empty sid t acc h

/-- fold_pres lifts a per-step preservation fact about a state projection
to the whole fold. -/
theorem fold_pres {β γ : Type} (f : ServerState × List Emit → β →
      ServerState × List Emit) (g : ServerState → γ)
    (hf : ∀ acc b, g (f acc b).1 = g acc.1) :
    ∀ (l : List β) (acc : ServerState × List Emit),
      g (l.foldl f acc).1 = g acc.1
  | [], _ => rfl
  | b :: t, acc => by
      rw [List.foldl_cons, fold_pres f g hf t (f acc b), hf]

theorem disconnecting_rooms (s : ServerState) (sid : String) (now : Nat) :
    (disconnecting s sid now).1.rooms = s.rooms := by
  unfold disconnecting
  rw [fold_pres (hostCheckStep sid) (fun st => st.rooms)
    (fun a b => hostCheckStep_rooms sid a b)]
  rw [fold_pres (leaveEmitStep sid now) (fun st => st.rooms)
    (fun a b => leaveEmitStep_rooms sid now a b)]

theorem disconnecting_metaKeys (s : ServerState) (sid : String)
    (now : Nat) :
    (disconnecting s sid now).1.roomMetadata.map Prod.fst
      = s.roomMetadata.map Prod.fst := by
  unfold disconnecting
  rw [fold_pres (hostCheckStep sid)
    (fun st => st.roomMetadata.map Prod.fst)
    (fun a b => by
      show (hostCheckStep sid a b).1.roomMetadata.map Prod.fst
        = a.1.roomMetadata.map Prod.fst
      rw [hostCheckStep_meta])]
  rw [fold_pres (leaveEmitStep sid now)
    (fun st => st.roomMetadata.map Prod.fst)
    (fun a b => leaveEmitStep_keys sid now a b)]

theorem disconnecting_eq_fold1 (s : ServerState) (sid : String)
    (now : Nat) (h : s.roomHosts = []) :
    disconnecting s sid now
      = (socketRooms s sid).foldl (leaveEmitStep sid now) (s, []) := by
  unfold disconnecting
  apply fold_hostCheck_empty
  rw [fold_pres (leaveEmitStep sid now) (fun st => st.roomHosts)
    (fun a b => leaveEmitStep_roomHosts sid now a b)]
  exact h

theorem disconnect_rooms (s : ServerState) (sid : String) (now : Nat) :
    (disconnect s sid now).1.rooms
      = s.rooms.map (fun p => (p.1, p.2.filter (· ≠ sid))) := by
  show (removeSocket (disconnecting s sid now).1 sid).rooms = _
  unfold removeSocket
  rw [disconnecting_rooms]

theorem disconnect_metaKeys (s : ServerState) (sid : String) (now : Nat) :
    (disconnect s sid now).1.roomMetadata.map Prod.fst
      = s.roomMetadata.map Prod.fst := by
  show (removeSocket (disconnecting s sid now).1 sid).roomMetadata.map
      Prod.fst = _
  exact disconnecting_metaKeys s sid now

theorem disconnect_metaPred {r : String} {P : RoomMeta → Prop} {now : Nat}
    (hP : ∀ md, P md → P { md with lastActivity := now })
    (s : ServerState) (sid : String) (h : MetaPred r P s) :
    MetaPred r P (disconnect s sid now).1 := by
  show MetaPred r P (removeSocket (disconnecting s sid now).1 sid)
  have hmeta : (removeSocket (disconnecting s sid now).1 sid).roomMetadata
      = (disconnecting s sid now).1.roomMetadata := rfl
  unfold MetaPred
  rw [hmeta]
  unfold disconnecting
  have h2 : ((socketRooms s sid).foldl (hostCheckStep sid)
      ((socketRooms s sid).foldl (leaveEmitStep sid now)
        (s, []))).1.roomMetadata
      = ((socketRooms s sid).foldl (leaveEmitStep sid now)
        (s, [])).1.roomMetadata :=
    fold_pres (hostCheckStep sid) (fun st => st.roomMetadata)
      (fun a b => hostCheckStep_meta sid a b) _ _
  rw [h2]
  have h1 : MetaPred r P ((socketRooms s sid).foldl
      (leaveEmitStep sid now) (s, [])).1 :=
    foldl_inv (fun acc => MetaPred r P acc.1) (leaveEmitStep sid now)
      (fun a b hp => leaveEmitStep_metaPred hP sid a b hp) _ _ h
  exact h1

theorem disconnect_roomHosts_empty (s : ServerState) (sid : String)
    (now : Nat) (h : s.roomHosts = []) :
    (disconnect s sid now).1.roomHosts = [] := by
  show (removeSocket (disconnecting s sid now).1 sid).roomHosts = []
  have hd : (disconnecting s sid now).1.roomHosts = [] := by
    rw [disconnecting_eq_fold1 s sid now h]
    rw [fold_pres (leaveEmitStep sid now) (fun st => st.roomHosts)
      (fun a b => leaveEmitStep_roomHosts sid now a b)]
    exact h
  exact hd

theorem fold_disconnectStep_fst (now : Nat) :
    ∀ (l : List String) (acc : ServerState × List Emit),
      (l.foldl (disconnectStep now) acc).1 = (disconnectAll acc.1 l now).1
  | [], _ => rfl
  | m :: t, acc => by
      rw [List.foldl_cons,
        fold_disconnectStep_fst now t (disconnectStep now acc m)]
      unfold disconnectAll
      rw [List.foldl_cons,
        fold_disconnectStep_fst now t (disconnectStep now (acc.1, []) m)]
      rfl

theorem disconnectAll_cons_fst (s : ServerState) (m : String)
    (t : List String) (now : Nat) :
    (disconnectAll s (m :: t) now).1
      = (disconnectAll (disconnect s m now).1 t now).1 := by
  unfold disconnectAll
  rw [List.foldl_cons, fold_disconnectStep_fst now t
    (disconnectStep now (s, []) m)]
  rfl

theorem decide_notMem_cons (x m : String) (t : List String) :
    (decide (x ∉ m :: t)) = (decide (x ∉ t) && decide (x ≠ m)) := by
  by_cases h1 : x = m <;> by_cases h2 : x ∈ t <;> simp [h1, h2]

theorem disconnectAll_rooms (now : Nat) :
    ∀ (l : List String) (s : ServerState),
      (disconnectAll s l now).1.rooms
        = s.rooms.map (fun p =>
            (p.1, p.2.filter (fun x => decide (x ∉ l))))
  | [], s => by
      have hp : ∀ p : String × List String, p ∈ s.rooms →
          (p.1, p.2.filter (fun x => decide (x ∉ ([] : List String))))
            = p := by
        intro p _
        have hfe : p.2.filter (fun x => decide (x ∉ ([] : List String)))
            = p.2 := List.filter_eq_self.mpr (fun a _ => by simp)
        rw [hfe]
      show s.rooms = _
      rw [List.map_congr_left hp, List.map_id' s.rooms]
  | m :: t, s => by
      rw [disconnectAll_cons_fst,
        disconnectAll_rooms now t (disconnect s m now).1,
        disconnect_rooms, List.map_map]
      apply List.map_congr_left
      intro p _
      simp only [Function.comp]
      rw [List.filter_filter]
      apply congrArg
      apply List.filter_congr
      intro x _
      rw [decide_notMem_cons]

theorem disconnectAll_metaKeys (now : Nat) :
    ∀ (l : List String) (s : ServerState),
      (disconnectAll s l now).1.roomMetadata.map Prod.fst
        = s.roomMetadata.map Prod.fst
  | [], _ => rfl
  | m :: t, s => by
      rw [disconnectAll_cons_fst,
        disconnectAll_metaKeys now t (disconnect s m now).1,
        disconnect_metaKeys]

theorem disconnectAll_metaPred {r : String} {P : RoomMeta → Prop}
    {now : Nat} (hP : ∀ md, P md → P { md with lastActivity := now }) :
    ∀ (l : List String) (s : ServerState), MetaPred r P s →
      MetaPred r P (disconnectAll s l now).1
  | [], _, h => h
  | m :: t, s, h => by
      rw [disconnectAll_cons_fst]
      exact disconnectAll_metaPred hP t (disconnect s m now).1
        (disconnect_metaPred hP s m h)

theorem disconnectAll_roomHosts_empty (now : Nat) :
    ∀ (l : List String) (s : ServerState), s.roomHosts = [] →
      (disconnectAll s l now).1.roomHosts = []
  | [], _, h => h
  | m :: t, s, h => by
      rw [disconnectAll_cons_fst]
      exact disconnectAll_roomHosts_empty now t (disconnect s m now).1
        (disconnect_roomHosts_empty s m now h)

/-
  Equations and invariants for the expiry sweep.
-/

theorem metaDrop_rooms (s : ServerState) (r : String) :
    (metaDrop s r).rooms = s.rooms := rfl

theorem expireRoomStep_none (acc : ServerState × List Emit) {r : String}
    {now : Nat} (hm : lookupA acc.1.roomMetadata r = none) :
    expireRoomStep now acc r = acc := by
  simp only [expireRoomStep, hm]

theorem expireRoomStep_stale (acc : ServerState × List Emit) {r : String}
    {md : RoomMeta} {now : Nat}
    (hm : lookupA acc.1.roomMetadata r = some md)
    (hex : ¬ now - md.lastActivity > ROOM_EXPIRY_TIME) :
    expireRoomStep now acc r = acc := by
  simp only [expireRoomStep, hm]
  rw [if_neg hex]

theorem expireRoomStep_expired (acc : ServerState × List Emit)
    {r : String} {md : RoomMeta} {now : Nat}
    (hm : lookupA acc.1.roomMetadata r = some md)
    (hex : now - md.lastActivity > ROOM_EXPIRY_TIME) :
    expireRoomStep now acc r
      = ((disconnectAll (metaDrop acc.1 r) (membersOf acc.1 r) now).1,
         acc.2
          ++ (ioTo (metaDrop acc.1 r) r).map
              (fun m => (m, SEvent.roomExpired))
          ++ (disconnectAll (metaDrop acc.1 r) (membersOf acc.1 r)
              now).2) := by
  simp only [expireRoomStep, hm]
  rw [if_pos hex]
  rfl

theorem expireRoomStep_hosts_empty (now : Nat)
    (acc : ServerState × List Emit) (r : String)
    (h : acc.1.roomHosts = []) :
    (expireRoomStep now acc r).1.roomHosts = [] := by
  cases hm : lookupA acc.1.roomMetadata r with
  | none => rw [expireRoomStep_none acc hm]; exact h
  | some md =>
      by_cases hex : now - md.lastActivity > ROOM_EXPIRY_TIME
      · rw [expireRoomStep_expired acc hm hex]
        exact disconnectAll_roomHosts_empty now _ _ h
      · rw [expireRoomStep_stale acc hm hex]; exact h

/-
  The structural invariant holds in every reachable state.
-/

theorem inv_connect (s : ServerState) (sid : String) (h : ServerInv s) :
    ServerInv (connect s sid) := h

theorem inv_joinRoom (s : ServerState) (sid r : String) (now : Nat)
    (h : ServerInv s) : ServerInv (joinRoom s sid r now).1 := by
  obtain ⟨h1, h2, h3⟩ := h
  show ServerInv (ensureMeta (joinAdapter s sid r) r sid now)
  refine ⟨?_, ?_, ?_⟩
  · rw [ensureMeta_rooms]
    exact joinAdapter_rooms_nodup s sid r h1
  · apply ensureMeta_keys_nodup
    rw [joinAdapter_meta]
    exact h2
  · intro r' ms' hmem hne
    rw [ensureMeta_rooms] at hmem
    rcases mem_joinAdapter_rooms hmem with hr | hr
    · rw [show r' = r from hr]
      exact ensureMeta_key_self _ r sid now
    · apply ensureMeta_keys_superset
      rw [joinAdapter_meta]
      exact h3 r' ms' hr hne

theorem inv_disconnect (s : ServerState) (sid : String) (now : Nat)
    (h : ServerInv s) : ServerInv (disconnect s sid now).1 := by
  obtain ⟨h1, h2, h3⟩ := h
  refine ⟨?_, ?_, ?_⟩
  · rw [disconnect_rooms, List.map_map]
    have hc : (Prod.fst ∘ fun p : String × List String =>
        (p.1, p.2.filter (· ≠ sid))) = Prod.fst := funext fun p => rfl
    rw [hc]
    exact h1
  · rw [disconnect_metaKeys]
    exact h2
  · intro r' ms' hmem hne
    rw [disconnect_rooms] at hmem
    rcases List.mem_map.mp hmem with ⟨p, hp, he⟩
    obtain ⟨a, b⟩ := p
    injection he with hfst hsnd
    have hb : b ≠ [] := by
      intro hnil
      rw [hnil] at hsnd
      exact hne hsnd.symm
    rw [disconnect_metaKeys, ← hfst]
    exact h3 a b hp hb

theorem expireRoomStep_inv (now : Nat) (acc : ServerState × List Emit)
    (r'' : String) (h : ServerInv acc.1) :
    ServerInv (expireRoomStep now acc r'').1 := by
  obtain ⟨h1, h2, h3⟩ := h
  cases hm : lookupA acc.1.roomMetadata r'' with
  | none => rw [expireRoomStep_none acc hm]; exact ⟨h1, h2, h3⟩
  | some md =>
      by_cases hex : now - md.lastActivity > ROOM_EXPIRY_TIME
      · rw [expireRoomStep_expired acc hm hex]
        show ServerInv (disconnectAll (metaDrop acc.1 r'')
          (membersOf acc.1 r'') now).1
        refine ⟨?_, ?_, ?_⟩
        · rw [disconnectAll_rooms, metaDrop_rooms, List.map_map]
          have hc : (Prod.fst ∘ fun p : String × List String =>
              (p.1, p.2.filter (fun x =>
                decide (x ∉ membersOf acc.1 r'')))) = Prod.fst :=
            funext fun p => rfl
          rw [hc]
          exact h1
        · rw [disconnectAll_metaKeys]
          exact List.Nodup.sublist
            ((List.filter_sublist acc.1.roomMetadata).map Prod.fst) h2
        · intro r' ms' hmem hne
          rw [disconnectAll_rooms, metaDrop_rooms] at hmem
          rcases List.mem_map.mp hmem with ⟨p, hp, he⟩
          obtain ⟨a, b⟩ := p
          injection he with hfst hsnd
          by_cases hrr : r' = r''
          · exfalso
            have hlk : lookupA acc.1.rooms a = some b :=
              lookupA_of_mem_nodup h1 hp
            have hmem2 : membersOf acc.1 r'' = b := by
              unfold membersOf
              rw [← hrr, ← hfst] at *
              rw [hlk]
              rfl
            rw [hmem2] at hsnd
            have : b.filter (fun x => decide (x ∉ b)) = [] := by
              rw [List.filter_eq_nil_iff]
              intro x hx
              simp [hx]
            rw [this] at hsnd
            exact hne hsnd.symm
          · rw [disconnectAll_metaKeys]
            have hk : a ∈ acc.1.roomMetadata.map Prod.fst := by
              apply h3 a b hp
              intro hnil
              rw [hnil] at hsnd
              exact hne hsnd.symm
            show r' ∈ (acc.1.roomMetadata.filter
              (fun p => p.1 ≠ r'')).map Prod.fst
            exact mem_keys_filter (hfst ▸ hk) hrr
      · rw [expireRoomStep_stale acc hm hex]; exact ⟨h1, h2, h3⟩

theorem cleanup_inv (s : ServerState) (now : Nat) (h : ServerInv s) :
    ServerInv (cleanupExpiredRooms s now).1 := by
  unfold cleanupExpiredRooms
  exact foldl_inv (fun acc => ServerInv acc.1) (expireRoomStep now)
    (fun a b hp => expireRoomStep_inv now a b hp) _ (s, []) h

theorem inv_reachable {s : ServerState} (h : Reachable s) :
    ServerInv s := by
  induction h with
  | init =>
      refine ⟨List.nodup_nil, List.nodup_nil, ?_⟩
      intro r ms hm
      simp [initialServer] at hm
  | step _ hst ih =>
      cases hst with
      | connect sid hc => exact inv_connect _ sid ih
      | join sid r now hc => exact inv_joinRoom _ sid r now ih
      | signal sid r d hc =>
          rw [signalHandler_state]
          exact ih
      | disconnect sid now hc => exact inv_disconnect _ sid now ih
      | cleanup now => exact cleanup_inv _ now ih

theorem joinRoom_roomHosts (s : ServerState) (sid r : String)
    (now : Nat) : (joinRoom s sid r now).1.roomHosts = s.roomHosts := by
  show (ensureMeta (joinAdapter s sid r) r sid now).roomHosts = _
  rw [ensureMeta_roomHosts, joinAdapter_roomHosts]

theorem cleanup_hosts_empty (s : ServerState) (now : Nat)
    (h : s.roomHosts = []) :
    (cleanupExpiredRooms s now).1.roomHosts = [] := by
  unfold cleanupExpiredRooms
  exact foldl_inv (fun acc => acc.1.roomHosts = []) (expireRoomStep now)
    (fun a b hp => expireRoomStep_hosts_empty now a b hp) _ (s, []) h

/-
  Negotiator lemmas (candidate-queue discipline).
-/

theorem candidatesOf_cons_offer (t : List NegSig) :
    candidatesOf (NegSig.offer :: t) = candidatesOf t := rfl

theorem candidatesOf_cons_answer (t : List NegSig) :
    candidatesOf (NegSig.answer :: t) = candidatesOf t := rfl

theorem candidatesOf_cons_cand (c : Nat) (t : List NegSig) :
    candidatesOf (NegSig.cand c :: t) = c :: candidatesOf t := rfl

theorem negFold_spec :
    ∀ (tr : List NegSig) (st : NegState),
      (st.remoteDescSet = true → st.queue = []) →
      ((tr.foldl negStep st).applied ++ (tr.foldl negStep st).queue
        = st.applied ++ st.queue ++ candidatesOf tr)
      ∧ ((tr.foldl negStep st).remoteDescSet = true →
          (tr.foldl negStep st).queue = [])
      ∧ ((tr.foldl negStep st).remoteDescSet = false →
          st.remoteDescSet = false
          ∧ (tr.foldl negStep st).applied = st.applied)
  | [], st, h => by
      refine ⟨by simp [candidatesOf], h, fun hf => ⟨hf, rfl⟩⟩
  | NegSig.offer :: t, st, h => by
      obtain ⟨ih1, ih2, ih3⟩ :=
        negFold_spec t (negStep st NegSig.offer) (fun _ => rfl)
      rw [List.foldl_cons] at *
      refine ⟨?_, ih2, ?_⟩
      · rw [ih1, candidatesOf_cons_offer]
        show (st.applied ++ st.queue) ++ [] ++ candidatesOf t
          = st.applied ++ st.queue ++ candidatesOf t
        simp
      · intro hf
        obtain ⟨hf1, _⟩ := ih3 hf
        exact absurd hf1 (by simp [negStep])
  | NegSig.answer :: t, st, h => by
      obtain ⟨ih1, ih2, ih3⟩ :=
        negFold_spec t (negStep st NegSig.answer) (fun _ => rfl)
      rw [List.foldl_cons] at *
      refine ⟨?_, ih2, ?_⟩
      · rw [ih1, candidatesOf_cons_answer]
        show (st.applied ++ st.queue) ++ [] ++ candidatesOf t
          = st.applied ++ st.queue ++ candidatesOf t
        simp
      · intro hf
        obtain ⟨hf1, _⟩ := ih3 hf
        exact absurd hf1 (by simp [negStep])
  | NegSig.cand c :: t, st, h => by
      cases hd : st.remoteDescSet with
      | true =>
          have hq : st.queue = [] := h hd
          have hst1 : negStep st (NegSig.cand c)
              = { st with applied := st.applied ++ [c] } := by
            simp [negStep, hd]
          obtain ⟨ih1, ih2, ih3⟩ :=
            negFold_spec t (negStep st (NegSig.cand c))
              (fun _ => by rw [hst1]; exact hq)
          rw [List.foldl_cons] at *
          refine ⟨?_, ih2, ?_⟩
          · rw [ih1, hst1, candidatesOf_cons_cand]
            show (st.applied ++ [c]) ++ st.queue ++ candidatesOf t
              = st.applied ++ st.queue ++ (c :: candidatesOf t)
            rw [hq]
            simp
          · intro hf
            obtain ⟨hf1, _⟩ := ih3 hf
            rw [hst1] at hf1
            exact absurd (hd ▸ hf1) (by simp)
      | false =>
          have hst1 : negStep st (NegSig.cand c)
              = { st with queue := st.queue ++ [c] } := by
            simp [negStep, hd]
          obtain ⟨ih1, ih2, ih3⟩ :=
            negFold_spec t (negStep st (NegSig.cand c))
              (fun hh => by rw [hst1] at hh; rw [hd] at hh; cases hh)
          rw [List.foldl_cons] at *
          refine ⟨?_, ih2, ?_⟩
          · rw [ih1, hst1, candidatesOf_cons_cand]
            show st.applied ++ (st.queue ++ [c]) ++ candidatesOf t
              = st.applied ++ st.queue ++ (c :: candidatesOf t)
            simp
          · intro hf
            obtain ⟨_, hf2⟩ := ih3 hf
            refine ⟨rfl, ?_⟩
            rw [hf2, hst1]

/-
  Orchestrator lemmas (unique negotiator per peer).
-/

theorem keys_snoc_nodup {β : Type} {l : List (String × β)} {k : String}
    (v : β) (h : (l.map Prod.fst).Nodup) (hk : k ∉ l.map Prod.fst) :
    ((l ++ [(k, v)]).map Prod.fst).Nodup := by
  simp only [List.map_append, List.map_cons, List.map_nil]
  rw [List.nodup_append]
  refine ⟨h, List.nodup_singleton k, ?_⟩
  intro a ha hb
  rw [List.mem_singleton] at hb
  exact hk (hb ▸ ha)

theorem handleUserJoined_nodup (o : OrchState) (sid : String)
    (h : (o.peers.map Prod.fst).Nodup) :
    ((handleUserJoined o sid).peers.map Prod.fst).Nodup := by
  unfold handleUserJoined
  by_cases hs : (lookupA o.peers sid).isSome = true
  · rw [if_pos hs]
    exact h
  · rw [if_neg hs]
    apply keys_snoc_nodup initNeg h
    rw [← lookupA_isSome_iff]
    exact fun hh => hs hh

theorem handleSignalBody_nodup (o : OrchState) (sender : String)
    (sig : NegSig) (h : (o.peers.map Prod.fst).Nodup) :
    ((handleSignalBody o sender sig).peers.map Prod.fst).Nodup := by
  unfold handleSignalBody
  by_cases hs : (lookupA o.peers sender).isSome = true
  · rw [if_pos hs]
    show ((updateAssoc o.peers sender _).map Prod.fst).Nodup
    rw [updateAssoc_keys]
    exact h
  · rw [if_neg hs]
    show ((updateAssoc (o.peers ++ [(sender, initNeg)]) sender _).map
      Prod.fst).Nodup
    rw [updateAssoc_keys]
    apply keys_snoc_nodup initNeg h
    rw [← lookupA_isSome_iff]
    exact fun hh => hs hh

theorem handleSignal_nodup (selfId : String) (o : OrchState)
    (sender : String) (d : InData) (h : (o.peers.map Prod.fst).Nodup) :
    ((handleSignal selfId o sender d).peers.map Prod.fst).Nodup := by
  cases hd : d.«to» with
  | none =>
      simp only [handleSignal, hd]
      exact handleSignalBody_nodup o sender d.sig h
  | some t =>
      simp only [handleSignal, hd]
      by_cases ht : t ≠ selfId
      · rw [if_pos ht]
        exact h
      · rw [if_neg ht]
        exact handleSignalBody_nodup o sender d.sig h

theorem handleUserLeft_nodup (o : OrchState) (sid : String)
    (h : (o.peers.map Prod.fst).Nodup) :
    ((handleUserLeft o sid).peers.map Prod.fst).Nodup := by
  unfold handleUserLeft
  by_cases hs : (lookupA o.peers sid).isSome = true
  · rw [if_pos hs]
    exact List.Nodup.sublist
      ((List.filter_sublist o.peers).map Prod.fst) h
  · rw [if_neg hs]
    exact h

theorem handleAllUsers_nodup (o : OrchState) (users : List String)
    (h : (o.peers.map Prod.fst).Nodup) :
    ((handleAllUsers o users).peers.map Prod.fst).Nodup := by
  unfold handleAllUsers
  exact foldl_inv (fun a => (a.peers.map Prod.fst).Nodup)
    handleUserJoined (fun a b hp => handleUserJoined_nodup a b hp)
    users o h

theorem cstep_nodup (selfId : String) (o : OrchState) (e : CEvent)
    (h : (o.peers.map Prod.fst).Nodup) :
    ((cstep selfId o e).peers.map Prod.fst).Nodup := by
  cases e with
  | userJoined sid => exact handleUserJoined_nodup o sid h
  | signalRecv sender d => exact handleSignal_nodup selfId o sender d h
  | userLeft sid => exact handleUserLeft_nodup o sid h
  | allUsers users => exact handleAllUsers_nodup o users h

theorem mem_of_lookupA {β : Type} {l : List (String × β)} {k : String}
    {v : β} (h : lookupA l k = some v) : (k, v) ∈ l := by
  induction l with
  | nil => simp [lookupA] at h
  | cons p t ih =>
      obtain ⟨a, b⟩ := p
      rw [lookupA_cons] at h
      by_cases hak : a = k
      · rw [if_pos hak] at h
        injection h with hbv
        subst hak
        subst hbv
        exact List.mem_cons_self _ _
      · rw [if_neg hak] at h
        exact List.mem_cons_of_mem _ (ih h)

theorem fold1_emits_userLeft (sid : String) (now : Nat) :
    ∀ (rs : List String) (acc : ServerState × List Emit),
      (∀ e ∈ acc.2, e.2 = SEvent.userLeft sid) →
      ∀ e ∈ (rs.foldl (leaveEmitStep sid now) acc).2,
        e.2 = SEvent.userLeft sid
  | [], _, h => h
  | r :: t, acc, h => by
      rw [List.foldl_cons]
      apply fold1_emits_userLeft sid now t
      intro e he
      obtain ⟨es, hes, hall⟩ := leaveEmitStep_emits sid now acc r
      rw [hes] at he
      rcases List.mem_append.mp he with he | he
      · exact h e he
      · exact hall e he

theorem fold1_emits_mem (sid : String) (now : Nat) (e : Emit)
    (rs : List String) (acc : ServerState × List Emit) (h : e ∈ acc.2) :
    e ∈ (rs.foldl (leaveEmitStep sid now) acc).2 :=
  foldl_inv (fun a => e ∈ a.2) (leaveEmitStep sid now)
    (fun a b hp => by
      obtain ⟨es, hes, _⟩ := leaveEmitStep_emits sid now a b
      rw [hes]
      exact List.mem_append_left es hp) rs acc h

theorem fold1_gen (sid : String) (now : Nat) (s : ServerState)
    (B r : String) (hB : B ∈ (membersOf s r).filter (· ≠ sid))
    (hr_ne : r ≠ sid) :
    ∀ (rs : List String) (acc : ServerState × List Emit),
      acc.1.rooms = s.rooms → r ∈ rs →
      (B, SEvent.userLeft sid) ∈ (rs.foldl (leaveEmitStep sid now) acc).2
  | [], _, _, hmem => absurd hmem (List.not_mem_nil _)
  | r0 :: t, acc, hrooms, hmem => by
      rw [List.foldl_cons]
      by_cases hr0 : r = r0
      · apply fold1_emits_mem
        subst hr0
        unfold leaveEmitStep
        rw [if_pos hr_ne]
        show (B, SEvent.userLeft sid) ∈ acc.2
          ++ ((membersOf acc.1 r).filter (· ≠ sid)).map
              (fun m => (m, SEvent.userLeft sid))
        apply List.mem_append_right
        apply List.mem_map.mpr
        refine ⟨B, ?_, rfl⟩
        rw [membersOf_congr hrooms]
        exact hB
      · rcases List.mem_cons.mp hmem with he | he
        · exact absurd he hr0
        · exact fold1_gen sid now s B r hB hr_ne t
            (leaveEmitStep sid now acc r0)
            (by rw [leaveEmitStep_rooms]; exact hrooms) he

theorem roomHosts_reachable {s : ServerState} (h : Reachable s) :
    s.roomHosts = [] := by
  induction h with
  | init => rfl
  | step _ hst ih =>
      cases hst with
      | connect sid hc => exact ih
      | join sid r now hc =>
          rw [joinRoom_roomHosts]
          exact ih
      | signal sid r d hc =>
          rw [signalHandler_state]
          exact ih
      | disconnect sid now hc =>
          exact disconnect_roomHosts_empty _ sid now ih
      | cleanup now => exact cleanup_hosts_empty _ now ih

theorem joinRoom_emits (s : ServerState) (sid r : String) (now : Nat) :
    (joinRoom s sid r now).2
      = (sid, SEvent.allUsers
          ((membersOf (joinRoom s sid r now).1 r).filter (· ≠ sid)))
        :: ((membersOf (joinRoom s sid r now).1 r).filter (· ≠ sid)).map
            (fun m => (m, SEvent.userJoined sid)) := rfl

/-
  Claims.
-/

/-- C1 (counterexample): the claim "a non-empty room's recorded host is a
current member" is false on the code. After a and b join room r and a
(the recorded host) disconnects, room r still has member b but the
recorded host is a, which is no longer a member: `roomMetadata.host` is
set only at creation (line 184) and never reassigned. -/
theorem c1_counterexample :
    membersOf exS5.1 "r" = ["b"]
    ∧ (lookupA exS5.1.roomMetadata "r").map RoomMeta.host = some "a"
    ∧ "a" ∉ membersOf exS5.1 "r" := by decide

/-- C1 (amended): in every reachable relay state, a room with a non-empty
member set has exactly one recorded host — its metadata entry is unique
and carries a single `host` field — but that host is the socket that
created the entry and need not be a current member. -/
theorem c1_amended (s : ServerState) (hs : Reachable s) (r : String)
    (ms : List String) (h1 : (r, ms) ∈ s.rooms) (h2 : ms ≠ []) :
    s.roomMetadata.countP (fun p => decide (p.1 = r)) = 1 := by
  obtain ⟨_, hnd, h3⟩ := inv_reachable hs
  exact countP_keys_eq_one hnd (h3 r ms h1 h2)

/-- C1 (witness): the amended claim evaluated on the concrete reachable
state where a connected and joined room r. -/
theorem c1_witness :
    exR2.roomMetadata.countP (fun p => decide (p.1 = "r")) = 1 :=
  c1_amended exR2
    (Reachable.step
      (Reachable.step Reachable.init
        (Step.connect initialServer "a" (by decide)))
      (Step.join (connect initialServer "a") "a" "r" 0 (by decide)))
    "r" ["a"] (by decide) (by decide)

/-- C2: for every inbound-signal sequence to one negotiator, the
candidates handed to the peer connection followed by the still-queued
ones are exactly the arrived candidates in arrival order (so each is
applied at most once, in order); no candidate is applied while the
remote description is unset; and once the remote description is set the
queue is empty (every queued candidate was drained). -/
theorem c2_candidate_buffering (tr : List NegSig) :
    (negRun tr).applied ++ (negRun tr).queue = candidatesOf tr
    ∧ ((negRun tr).remoteDescSet = false → (negRun tr).applied = [])
    ∧ ((negRun tr).remoteDescSet = true → (negRun tr).queue = []) := by
  obtain ⟨h1, h2, h3⟩ := negFold_spec tr initNeg (fun _ => rfl)
  refine ⟨by simpa using h1, ?_, h2⟩
  intro hf
  exact (h3 hf).2

/-- C2 (witness): the queue discipline evaluated on a concrete sequence
that queues two candidates, drains them on the offer, then applies a
third directly. -/
theorem c2_witness :
    (negRun trC2).applied ++ (negRun trC2).queue = candidatesOf trC2
    ∧ (negRun trC2).queue = [] :=
  ⟨(c2_candidate_buffering trC2).1,
   (c2_candidate_buffering trC2).2.2 (by decide)⟩

/-- C3 (counterexample): the claim "B receives host-transferred and is
recorded as the new host" is false on the code. When recorded host a of
room r disconnects while b remains, b receives only `user-left`; no
`host-transferred` event exists in the backend and the recorded host is
still a. -/
theorem c3_counterexample :
    exS5.2 = [("b", SEvent.userLeft "a")]
    ∧ (∀ e ∈ exS5.2, e.2 ≠ SEvent.hostTransferred)
    ∧ (lookupA exS5.1.roomMetadata "r").map RoomMeta.host = some "a" := by
  decide

/-- C3 (amended): if A is the recorded host of room r and A disconnects
while B remains, then B receives a `user-left` event (every event the
disconnect emits is `user-left`, so no `host-transferred`), the room's
metadata survives with its host record still A, and B is still a member
of r. -/
theorem c3_amended (s : ServerState) (r A B : String) (ms : List String)
    (md : RoomMeta) (now : Nat) (hreach : Reachable s)
    (hr : lookupA s.rooms r = some ms) (hA : A ∈ ms) (hB : B ∈ ms)
    (hAB : A ≠ B) (hrA : r ≠ A)
    (hmd : lookupA s.roomMetadata r = some md) (hhost : md.host = A) :
    (B, SEvent.userLeft A) ∈ (disconnect s A now).2
    ∧ (∀ e ∈ (disconnect s A now).2, e.2 = SEvent.userLeft A)
    ∧ (∃ md', lookupA (disconnect s A now).1.roomMetadata r = some md'
        ∧ md'.host = A)
    ∧ B ∈ membersOf (disconnect s A now).1 r := by
  have hosts0 : s.roomHosts = [] := roomHosts_reachable hreach
  have hemits : (disconnect s A now).2
      = ((socketRooms s A).foldl (leaveEmitStep A now) (s, [])).2 := by
    show (disconnecting s A now).2 = _
    rw [disconnecting_eq_fold1 s A now hosts0]
  have hms : membersOf s r = ms := by
    unfold membersOf
    rw [hr]
    rfl
  refine ⟨?_, ?_, ?_, ?_⟩
  · rw [hemits]
    have hBf : B ∈ (membersOf s r).filter (· ≠ A) := by
      rw [hms]
      exact List.mem_filter.mpr ⟨hB, decide_eq_true (Ne.symm hAB)⟩
    have hrs : r ∈ socketRooms s A := by
      unfold socketRooms
      apply List.mem_cons_of_mem
      apply List.mem_map.mpr
      refine ⟨(r, ms), ?_, rfl⟩
      exact List.mem_filter.mpr ⟨mem_of_lookupA hr, decide_eq_true hA⟩
    exact fold1_gen A now s B r hBf hrA (socketRooms s A) (s, []) rfl hrs
  · rw [hemits]
    exact fold1_emits_userLeft A now (socketRooms s A) (s, [])
      (fun e he => absurd he (List.not_mem_nil e))
  · exact disconnect_metaPred (fun md0 hh => hh) s A ⟨md, hmd, hhost⟩
  · unfold membersOf
    rw [disconnect_rooms,
      lookupA_map_val (fun v => v.filter (· ≠ A)) s.rooms r, hr]
    exact List.mem_filter.mpr ⟨hB, decide_eq_true (Ne.symm hAB)⟩

/-- C3 (witness): the amended claim evaluated on the concrete reachable
state with host a and member b in room r. -/
theorem c3_witness :
    ("b", SEvent.userLeft "a") ∈ (disconnect exS4 "a" 2).2
    ∧ (∀ e ∈ (disconnect exS4 "a" 2).2, e.2 = SEvent.userLeft "a")
    ∧ (∃ md', lookupA (disconnect exS4 "a" 2).1.roomMetadata "r"
        = some md' ∧ md'.host = "a")
    ∧ "b" ∈ membersOf (disconnect exS4 "a" 2).1 "r" :=
  c3_amended exS4 "r" "a" "b" ["a", "b"] ⟨0, 1, "a"⟩ 2
    (Reachable.step
      (Reachable.step
        (Reachable.step
          (Reachable.step Reachable.init
            (Step.connect initialServer "a" (by decide)))
          (Step.connect (connect initialServer "a") "b" (by decide)))
        (Step.join exS2 "a" "r" 0 (by decide)))
      (Step.join (joinRoom exS2 "a" "r" 0).1 "b" "r" 1 (by decide)))
    (by decide) (by decide) (by decide) (by decide) (by decide)
    (by decide) rfl

/-- C4 (counterexample): the claim "a targeted message is delivered only
if the target is a member of the given room, and otherwise dropped" is
false on the code: `io.to(data.to)` addresses the target's personal room
with no membership check, so c, a member of r2 only, still receives a
signal relayed in room r1. -/
theorem c4_counterexample :
    exT5.2 = [("c", SEvent.signal "a" dSpoof)]
    ∧ "c" ∉ membersOf exT4 "r1" := by decide

/-- C4 (amended): a targeted relay leaves the server state unchanged and
delivers the message, tagged with the true sender, to exactly the
io-room named by the target — the members of any room with that name
plus the target's personal room, as computed by ioTo, which never
consults the target's membership in `room` — so the sender gets no
error event; in particular, when the target matches no connected socket
and no room, nothing at all is delivered. -/
theorem c4_amended (s : ServerState) (sid r : String) (d : SignalData)
    (t : String) (ht : d.«to» = some t) :
    (signalHandler s sid r d).1 = s
    ∧ (signalHandler s sid r d).2
        = (ioTo s t).map (fun m => (m, SEvent.signal sid d))
    ∧ (∀ e ∈ (signalHandler s sid r d).2,
        ∃ m, e = (m, SEvent.signal sid d))
    ∧ (t ∉ s.connected → lookupA s.rooms t = none →
        (signalHandler s sid r d).2 = []) := by
  have hh : signalHandler s sid r d
      = (s, (ioTo s t).map (fun m => (m, SEvent.signal sid d))) := by
    simp only [signalHandler, ht]
  refine ⟨by rw [hh], by rw [hh], ?_, ?_⟩
  · intro e he
    rw [hh] at he
    rcases List.mem_map.mp he with ⟨m, _, hme⟩
    exact ⟨m, hme.symm⟩
  · intro hc hrt
    have hio : ioTo s t = [] := by
      unfold ioTo membersOf
      rw [hrt, if_neg hc]
      rfl
    rw [hh, hio]
    rfl

/-- C4 (witness): the delivery case evaluated on a target connected in a
different room — c still receives the signal relayed in r1 — and the
drop case on a target that matches no socket and no room. -/
theorem c4_witness :
    (signalHandler exT4 "a" "r1" dSpoof).2
      = (ioTo exT4 "c").map (fun m => (m, SEvent.signal "a" dSpoof))
    ∧ (signalHandler exT4 "a" "r1" dGhost).2 = [] :=
  ⟨(c4_amended exT4 "a" "r1" dSpoof "c" rfl).2.1,
   (c4_amended exT4 "a" "r1" dGhost "zz" rfl).2.2.2 (by decide)
     (by decide)⟩

/-- C5: for a room with no prior members, join(A) then join(B) sends A an
empty existing-members list, sends B exactly [A], and delivers to A
exactly one `user-joined` event for B. -/
theorem c5_join_round_trip (s : ServerState) (r A B : String)
    (n1 n2 : Nat) (hr : lookupA s.rooms r = none) (hAB : A ≠ B) :
    (A, SEvent.allUsers []) ∈ (joinRoom s A r n1).2
    ∧ (B, SEvent.allUsers [A])
        ∈ (joinRoom (joinRoom s A r n1).1 B r n2).2
    ∧ (joinRoom (joinRoom s A r n1).1 B r n2).2.count
        ((A, SEvent.userJoined B) : Emit) = 1 := by
  have hBA : B ≠ A := Ne.symm hAB
  have hs1rooms : (joinRoom s A r n1).1.rooms = s.rooms ++ [(r, [A])] := by
    show (ensureMeta (joinAdapter s A r) r A n1).rooms = _
    rw [ensureMeta_rooms]
    simp only [joinAdapter, hr]
  have hlk1 : lookupA (joinRoom s A r n1).1.rooms r = some [A] := by
    rw [hs1rooms, lookupA_append_none hr]
    rw [lookupA_cons, if_pos rfl]
  have hm1 : membersOf (joinRoom s A r n1).1 r = [A] := by
    unfold membersOf
    rw [hlk1]
    rfl
  have hadrooms : (joinAdapter (joinRoom s A r n1).1 B r).rooms
      = updateAssoc (joinRoom s A r n1).1.rooms r ([A] ++ [B]) := by
    simp only [joinAdapter, hlk1]
    rw [if_neg (by simp [hBA])]
  have hm2 : membersOf (joinRoom (joinRoom s A r n1).1 B r n2).1 r
      = [A, B] := by
    show membersOf
      (ensureMeta (joinAdapter (joinRoom s A r n1).1 B r) r B n2) r = _
    unfold membersOf
    rw [ensureMeta_rooms, hadrooms, lookupA_updateAssoc_self _ hlk1]
    rfl
  have hemits1 : (joinRoom s A r n1).2 = [(A, SEvent.allUsers [])] := by
    rw [joinRoom_emits, hm1]
    simp
  have hemits2 : (joinRoom (joinRoom s A r n1).1 B r n2).2
      = [(B, SEvent.allUsers [A]), (A, SEvent.userJoined B)] := by
    rw [joinRoom_emits, hm2]
    have hfilter : ([A, B].filter (· ≠ B)) = [A] := by
      simp [hAB, hBA]
    rw [hfilter]
    rfl
  refine ⟨?_, ?_, ?_⟩
  · rw [hemits1]
    exact List.mem_singleton_self _
  · rw [hemits2]
    exact List.mem_cons_self _ _
  · rw [hemits2]
    simp [List.count_cons, hAB, hBA]

/-- C5 (witness): the round trip evaluated with sockets a, b and room r
on a server with no rooms. -/
theorem c5_witness :
    ("a", SEvent.allUsers []) ∈ (joinRoom exS2 "a" "r" 0).2
    ∧ ("b", SEvent.allUsers ["a"])
        ∈ (joinRoom (joinRoom exS2 "a" "r" 0).1 "b" "r" 1).2
    ∧ (joinRoom (joinRoom exS2 "a" "r" 0).1 "b" "r" 1).2.count
        (("a", SEvent.userJoined "b") : Emit) = 1 :=
  c5_join_round_trip exS2 "r" "a" "b" 0 1 (by decide) (by decide)

/-- C6: invoking the offer path again toward a peer that already has a
negotiator entry (an offer in progress — the entry is recorded before
any suspension) is rejected without any state change, so no second offer
message is sent to that peer. -/
theorem c6_no_duplicate_offer (o : OrchState) (sid : String)
    (h : (lookupA o.peers sid).isSome = true) :
    handleUserJoined o sid = o
    ∧ (handleUserJoined o sid).sent = o.sent := by
  have he : handleUserJoined o sid = o := by
    unfold handleUserJoined
    rw [if_pos h]
  exact ⟨he, by rw [he]⟩

/-- C6 (witness): the guard evaluated on an orchestrator that already
sent an offer to peer p. -/
theorem c6_witness :
    handleUserJoined exO "p" = exO
    ∧ (handleUserJoined exO "p").sent = exO.sent :=
  c6_no_duplicate_offer exO "p" (by decide)

/-- C7: for every event sequence delivered to the client hook, the
orchestrator's peer map has pairwise-distinct keys — at most one
negotiator per remote peer — because every creation path (user-joined,
all-users, and lazy creation on an inbound signal) checks for an
existing entry first. -/
theorem c7_unique_negotiators (selfId : String) (tr : List CEvent) :
    ((crun selfId tr).peers.map Prod.fst).Nodup := by
  unfold crun
  exact foldl_inv (fun o => (o.peers.map Prod.fst).Nodup) (cstep selfId)
    (fun a b hp => cstep_nodup selfId a b hp) tr initOrch List.nodup_nil

/-- C8 (counterexample): the claim "on media denial the client still
joins the room" is false on the code: getStream leaves localStream null
on failure, and the join effect returns before emitting `join-room`
whenever localStream is null. -/
theorem c8_counterexample :
    getStreamResult MediaResult.err = none
    ∧ joinEffectEmits ⟨true, true, getStreamResult MediaResult.err⟩
        = [] := by decide

/-- C8 (amended): when media acquisition fails the error is only logged,
the local stream stays unset, and the client does not join the room:
`join-room` is emitted only once a local stream exists. -/
theorem c8_amended (c : ClientInit) (h : c.localStream = none) :
    joinEffectEmits c = [] ∧ getStreamResult MediaResult.err = none := by
  refine ⟨?_, rfl⟩
  unfold joinEffectEmits
  rw [h]
  simp

/-- C8 (witness): the guard evaluated with socket and room present but
no local stream. -/
theorem c8_witness :
    joinEffectEmits ⟨true, true, none⟩ = []
    ∧ getStreamResult MediaResult.err = none :=
  c8_amended ⟨true, true, none⟩ rfl

/-- C9 (counterexample): the claim "room state is discarded when the
member set becomes empty" is false on the code: after the only member of
room r disconnects, the member set is empty but the metadata entry
survives (only the hourly sweep deletes it). -/
theorem c9_counterexample :
    membersOf exV3.1 "r" = []
    ∧ lookupA exV3.1.roomMetadata "r" = some ⟨0, 5, "a"⟩ := by decide

/-- C9 (amended): room metadata is discarded only by the expiry sweep,
never on emptiness — a disconnect preserves the set of rooms with
metadata; when the sweep finds a room whose last-activity age exceeds
ROOM_EXPIRY_TIME it deletes the entry and notifies every current member
with `room-expired`; and a room not expired at sweep start survives the
whole sweep. -/
theorem c9_amended :
    (∀ (s : ServerState) (sid : String) (now : Nat),
      ((disconnect s sid now).1.roomMetadata).map Prod.fst
        = s.roomMetadata.map Prod.fst)
    ∧ (∀ (acc : ServerState × List Emit) (r : String) (now : Nat)
        (md : RoomMeta), lookupA acc.1.roomMetadata r = some md →
        now - md.lastActivity > ROOM_EXPIRY_TIME →
        lookupA (expireRoomStep now acc r).1.roomMetadata r = none
        ∧ ∀ m ∈ membersOf acc.1 r,
            (m, SEvent.roomExpired) ∈ (expireRoomStep now acc r).2)
    ∧ (∀ (s : ServerState) (now : Nat) (r : String) (md : RoomMeta),
        lookupA s.roomMetadata r = some md →
        ¬ now - md.lastActivity > ROOM_EXPIRY_TIME →
        ∃ md', lookupA (cleanupExpiredRooms s now).1.roomMetadata r
            = some md'
          ∧ ¬ now - md'.lastActivity > ROOM_EXPIRY_TIME) := by
  refine ⟨fun s sid now => disconnect_metaKeys s sid now, ?_, ?_⟩
  · intro acc r now md hm hex
    rw [expireRoomStep_expired acc hm hex]
    constructor
    · rw [lookupA_none_iff, disconnectAll_metaKeys]
      show r ∉ (acc.1.roomMetadata.filter (fun p => p.1 ≠ r)).map Prod.fst
      rw [← lookupA_none_iff]
      exact lookupA_filter_self acc.1.roomMetadata r
    · intro m hmem
      apply List.mem_append_left
      apply List.mem_append_right
      apply List.mem_map.mpr
      refine ⟨m, ?_, rfl⟩
      unfold ioTo
      apply List.mem_append_left
      rw [membersOf_congr (metaDrop_rooms acc.1 r)]
      exact hmem
  · intro s now r md hm hnex
    unfold cleanupExpiredRooms
    apply foldl_inv (fun acc : ServerState × List Emit =>
      ∃ md', lookupA acc.1.roomMetadata r = some md'
        ∧ ¬ now - md'.lastActivity > ROOM_EXPIRY_TIME)
      (expireRoomStep now) ?_ (s.roomMetadata.map Prod.fst) (s, [])
      ⟨md, hm, hnex⟩
    intro a b hp
    obtain ⟨md', hl, hne⟩ := hp
    cases hmb : lookupA a.1.roomMetadata b with
    | none =>
        rw [expireRoomStep_none a hmb]
        exact ⟨md', hl, hne⟩
    | some mdb =>
        by_cases hexb : now - mdb.lastActivity > ROOM_EXPIRY_TIME
        · have hbr : b ≠ r := by
            intro he
            subst he
            rw [hl] at hmb
            injection hmb with hh
            subst hh
            exact hne hexb
          rw [expireRoomStep_expired a hmb hexb]
          show MetaPred r
            (fun md0 => ¬ now - md0.lastActivity > ROOM_EXPIRY_TIME)
            (disconnectAll (metaDrop a.1 b) (membersOf a.1 b) now).1
          apply disconnectAll_metaPred
          · intro md0 _
            show ¬ now - now > ROOM_EXPIRY_TIME
            simp [Nat.sub_self]
          · refine ⟨md', ?_, hne⟩
            show lookupA (a.1.roomMetadata.filter (fun p => p.1 ≠ b)) r
              = some md'
            rw [lookupA_filter_ne (Ne.symm hbr)]
            exact hl
        · rw [expireRoomStep_stale a hmb hexb]
          exact ⟨md', hl, hne⟩

/-- C9 (witness): the sweep step evaluated on a room a day stale with
one member. -/
theorem c9_witness :
    lookupA (expireRoomStep (ROOM_EXPIRY_TIME + 1)
      (exW, []) "r").1.roomMetadata "r" = none
    ∧ ∀ m ∈ membersOf exW "r",
        (m, SEvent.roomExpired)
          ∈ (expireRoomStep (ROOM_EXPIRY_TIME + 1) (exW, []) "r").2 :=
  c9_amended.2.1 (exW, []) "r" (ROOM_EXPIRY_TIME + 1) ⟨0, 0, "a"⟩
    (by decide) (by decide)

/-- C10: every event the signal handler delivers carries the emitting
socket's id as its sender tag, and any claimed sender the client embeds
in the payload has no influence on the recipients or the delivered
sender tag. -/
theorem c10_sender_authoritative :
    (∀ (s : ServerState) (sid r : String) (d : SignalData),
      ∀ e ∈ (signalHandler s sid r d).2, e.2 = SEvent.signal sid d)
    ∧ (∀ (s : ServerState) (sid r : String) (d : SignalData)
        (x y : Option String),
        ((signalHandler s sid r { d with claimedSender := x }).2).map
          (fun e => (e.1, senderTag e.2))
        = ((signalHandler s sid r { d with claimedSender := y }).2).map
          (fun e => (e.1, senderTag e.2))) := by
  constructor
  · intro s sid r d e he
    cases hd : d.«to» with
    | none =>
        simp only [signalHandler, hd] at he
        rcases List.mem_map.mp he with ⟨m, _, hme⟩
        rw [← hme]
    | some t =>
        simp only [signalHandler, hd] at he
        rcases List.mem_map.mp he with ⟨m, _, hme⟩
        rw [← hme]
  · intro s sid r d x y
    cases hd : d.«to» with
    | none =>
        simp only [signalHandler, hd, List.map_map]
        apply List.map_congr_left
        intro m _
        rfl
    | some t =>
        simp only [signalHandler, hd, List.map_map]
        apply List.map_congr_left
        intro m _
        rfl

/-- C10 (witness): the authoritative sender tag evaluated on a payload
whose inner claimed sender is forged. -/
theorem c10_witness :
    (("c", SEvent.signal "a" dSpoof) : Emit).2
      = SEvent.signal "a" dSpoof :=
  c10_sender_authoritative.1 exT4 "a" "r1" dSpoof
    ("c", SEvent.signal "a" dSpoof) (by decide)

end VideoCallApp
